import Mathlib

set_option maxRecDepth 8000

/-!
Verification of the playback and spectrum-analysis pipeline of the
`chirpy` terminal music player.

The development shallowly embeds the core subsystem:

* the fixed-capacity sample ring buffer (`ringbuf::HeapRb` as used by the
  player, together with the evict-then-insert push performed in
  `src/audio/sample_capture.rs`);
* the `SampleCapture` pass-through iterator (`src/audio/sample_capture.rs`);
* the audio-thread command state machine of `MusicPlayer::new`
  (`src/audio/player.rs`), including its drained mode when no output
  device is available;
* the FFT spectrum pipeline (`src/audio/visualizer/fft.rs`) and the
  visualizer smoothing/peak state (`src/audio/visualizer/mod.rs`).

Floating-point (`f32`) arithmetic is idealised as exact arithmetic: the
player and buffer models are stated over `ℚ` (their sample values are
never computed with), and the signal-processing pipeline over `ℝ`.
-/

/-! ### The sample ring buffer

`HeapRb` models the `ringbuf::HeapRb` circular buffer through its external
contract: a capacity and the stored elements, oldest first.  `try_push`
appends only when not full, `try_pop` removes the oldest element, `clear`
empties the buffer, `occupied_len` is the number of stored elements and
iteration is oldest-to-newest. -/
structure HeapRb (α : Type) where
  cap : ℕ
  data : List α
deriving DecidableEq

/-- Model of `HeapRb::new(cap)`: an empty buffer with the given capacity. -/
def HeapRb.new (α : Type) (cap : ℕ) : HeapRb α := ⟨cap, []⟩

/-- Model of `occupied_len()`. -/
def HeapRb.occupiedLen {α : Type} (b : HeapRb α) : ℕ := b.data.length

/-- Model of `try_push(x)`: appends `x` if the buffer is not full, else fails
(leaving the buffer unchanged; the code discards the returned `Result`). -/
def HeapRb.tryPush {α : Type} (b : HeapRb α) (x : α) : HeapRb α :=
  if b.data.length < b.cap then ⟨b.cap, b.data ++ [x]⟩ else b

/-- Model of `try_pop()`: removes the oldest element if any (the code
discards the popped value). -/
def HeapRb.tryPop {α : Type} (b : HeapRb α) : HeapRb α := ⟨b.cap, b.data.tail⟩

/-- Model of `clear()`. -/
def HeapRb.clear {α : Type} (b : HeapRb α) : HeapRb α := ⟨b.cap, []⟩

/-- The composite push performed by `SampleCapture::next`
(`src/audio/sample_capture.rs` lines 31-36):
`if buf.is_full() { let _ = buf.try_pop(); } let _ = buf.try_push(sample);`.
`is_full` is `occupied_len() == capacity`. -/
def capturePush {α : Type} (b : HeapRb α) (x : α) : HeapRb α :=
  (if b.data.length = b.cap then b.tryPop else b).tryPush x

/-- Pushing a whole list of samples in order. -/
def pushAll {α : Type} (b : HeapRb α) (xs : List α) : HeapRb α :=
  xs.foldl capturePush b

theorem capturePush_cap {α : Type} (b : HeapRb α) (x : α) :
    (capturePush b x).cap = b.cap := by
  unfold capturePush HeapRb.tryPop HeapRb.tryPush
  by_cases h : b.data.length = b.cap <;> simp only [h, if_pos, if_neg, ite_true,
    ite_false] <;> split <;> rfl

theorem pushAll_cap {α : Type} (b : HeapRb α) (xs : List α) :
    (pushAll b xs).cap = b.cap := by
  induction xs generalizing b with
  | nil => rfl
  | cons x xs ih => rw [pushAll, List.foldl_cons, ← pushAll, ih, capturePush_cap]

/-- A push when not full simply appends. -/
theorem capturePush_not_full {α : Type} (b : HeapRb α) (x : α)
    (h : b.data.length < b.cap) :
    (capturePush b x).data = b.data ++ [x] := by
  unfold capturePush HeapRb.tryPop HeapRb.tryPush
  simp [Nat.ne_of_lt h, h]

/-- A push when full replaces the oldest element: the contents become the
tail of the old contents with the new sample appended. -/
theorem capturePush_full {α : Type} (b : HeapRb α) (x : α)
    (hc : 0 < b.cap) (hf : b.data.length = b.cap) :
    (capturePush b x).data = b.data.tail ++ [x] := by
  rcases b with ⟨c, d⟩
  simp only at hf hc
  cases d with
  | nil => simp at hf; omega
  | cons y ys =>
    have hlen : ys.length + 1 = c := by simpa using hf
    have hys : ys.length < c := by omega
    unfold capturePush HeapRb.tryPop HeapRb.tryPush
    simp [hf, hys]

/-- A push keeps the occupied length at most the capacity. -/
theorem capturePush_length_le {α : Type} (b : HeapRb α) (x : α)
    (h : b.data.length ≤ b.cap) : (capturePush b x).data.length ≤ b.cap := by
  rcases Nat.eq_zero_or_pos b.cap with hc | hc
  · have hd : b.data = [] := List.eq_nil_of_length_eq_zero (by omega)
    unfold capturePush HeapRb.tryPop HeapRb.tryPush
    simp [hd, hc]
  · by_cases hf : b.data.length = b.cap
    · rw [capturePush_full b x hc hf]
      have hpos : 0 < b.data.length := by omega
      simp [List.length_tail]
      omega
    · rw [capturePush_not_full b x (lt_of_le_of_ne h hf)]
      simp
      omega

/-- FIFO characterisation of a push sequence: after pushing `xs` onto a
buffer whose occupancy respects the capacity, the contents are the last
`cap` elements of the concatenated stream, in order. -/
theorem pushAll_data {α : Type} (xs : List α) (b : HeapRb α)
    (hc : 0 < b.cap) (h : b.data.length ≤ b.cap) :
    (pushAll b xs).data =
      (b.data ++ xs).drop ((b.data.length + xs.length) - b.cap) := by
  induction xs generalizing b with
  | nil => simp [pushAll, Nat.sub_eq_zero_of_le h]
  | cons x xs ih =>
    rw [pushAll, List.foldl_cons, ← pushAll]
    have hcap : (capturePush b x).cap = b.cap := capturePush_cap b x
    by_cases hf : b.data.length = b.cap
    · have hb' : (capturePush b x).data = b.data.tail ++ [x] :=
        capturePush_full b x hc hf
      have hpos : 0 < b.data.length := by omega
      have hlen : (capturePush b x).data.length = b.cap := by
        rw [hb']
        simp [List.length_tail]
        omega
      have hrec := ih (capturePush b x)
        (by rw [hcap]; exact hc) (by rw [hcap, hlen])
      rw [hrec, hcap, hlen, hb']
      rcases b with ⟨c, d⟩
      simp only at hf hpos hc ⊢
      cases d with
      | nil => simp at hpos
      | cons y ys =>
        have hlen2 : ys.length + 1 = c := by simpa using hf
        have harith : (y :: ys).length + (x :: xs).length - c = xs.length + 1 := by
          simp
          omega
        have harith2 : c + xs.length - c = xs.length := by omega
        rw [harith, harith2]
        simp [List.tail_cons, List.append_assoc]
    · have hlt : b.data.length < b.cap := lt_of_le_of_ne h hf
      have hb' : (capturePush b x).data = b.data ++ [x] :=
        capturePush_not_full b x hlt
      have hrec := ih (capturePush b x)
        (by rw [hcap]; exact hc)
        (by rw [hcap, hb']; simp; omega)
      rw [hrec, hcap, hb']
      have harith : (b.data ++ [x]).length + xs.length - b.cap =
          b.data.length + (x :: xs).length - b.cap := by
        simp
        omega
      rw [harith, List.append_assoc]
      simp

/-- Occupancy never exceeds capacity along any push sequence. -/
theorem pushAll_length_le {α : Type} (xs : List α) (b : HeapRb α)
    (h : b.data.length ≤ b.cap) : (pushAll b xs).data.length ≤ b.cap := by
  induction xs generalizing b with
  | nil => exact h
  | cons x xs ih =>
    rw [pushAll, List.foldl_cons, ← pushAll]
    have h1 : (capturePush b x).data.length ≤ b.cap := capturePush_length_le b x h
    have hcap : (capturePush b x).cap = b.cap := capturePush_cap b x
    have := ih (capturePush b x) (by rw [hcap]; exact h1)
    rw [hcap] at this
    exact this

/-! ### The sample-capture pass-through wrapper

`SampleCapture` wraps an iterator-like source; `next()` pulls the next
sample from the source, pushes it into the shared ring buffer (evicting the
oldest sample when full) and yields the very same sample.  The underlying
source is modelled by the list of samples it will yield. -/

/-- Model of repeatedly calling `SampleCapture::next` until the source is
exhausted: returns the list of yielded samples and the final buffer. -/
def captureOut {α : Type} : List α → HeapRb α → List α × HeapRb α
  | [], b => ([], b)
  | s :: rest, b =>
    let r := captureOut rest (capturePush b s)
    (s :: r.1, r.2)

theorem captureOut_spec {α : Type} (src : List α) (b : HeapRb α) :
    (captureOut src b).1 = src ∧ (captureOut src b).2 = pushAll b src := by
  induction src generalizing b with
  | nil => exact ⟨rfl, rfl⟩
  | cons s rest ih =>
    have h := ih (capturePush b s)
    exact ⟨by simp [captureOut, h.1], by simp [captureOut, h.2, pushAll]⟩

/-! ### The audio-thread command state machine

`MusicPlayer::new` spawns a thread owning the output stream, an optional
`Sink` and the shared buffer, and processes commands in order.  Sessions
(sinks) are identified by the natural number tagging the track that was
opened, and every pushed sample is tagged with the track it came from, so
provenance across track changes can be stated.  `PEvent` is the alphabet
of the serialized execution: resolved commands plus sample emissions
performed on behalf of the current sink. -/

/-- State of the audio thread: the current sink (tagged with its track),
the two mirrored atomic flags, and the shared sample buffer. -/
structure PlayerState where
  sink : Option ℕ
  playing : Bool
  paused : Bool
  buffer : HeapRb (ℕ × ℚ)
deriving DecidableEq

/-- Initial state: no sink, both flags false, empty buffer of capacity
16384 (`src/audio/player.rs` line 51). -/
def playerInit : PlayerState := ⟨none, false, false, HeapRb.new _ 16384⟩

/-- Events processed by the audio thread: a `Play` whose open succeeded for
track `t`, a `Play` whose sink/file/decoder step failed, the remaining
commands, and the emission of one sample by the active source. -/
inductive PEvent where
  | playOk (t : ℕ)
  | playFail
  | pause
  | resume
  | stop
  | emit (x : ℚ)
deriving DecidableEq

/-- One step of the audio-thread loop (`src/audio/player.rs` lines 75-125).
`Play` first stops and drops any previous sink, then clears the sample
buffer, and only then attempts to build the new session; on success the
flags are set, on failure nothing further happens.  `Pause`/`Resume` touch
the paused flag only when a sink exists.  `Stop` drops the sink and clears
both flags.  `emit` pushes one sample of the current track through the
`SampleCapture` wrapper. -/
def pstep (s : PlayerState) (e : PEvent) : PlayerState :=
  match e with
  | .playOk t => ⟨some t, true, false, s.buffer.clear⟩
  | .playFail => ⟨none, s.playing, s.paused, s.buffer.clear⟩
  | .pause => if s.sink.isSome then ⟨s.sink, s.playing, true, s.buffer⟩ else s
  | .resume => if s.sink.isSome then ⟨s.sink, s.playing, false, s.buffer⟩ else s
  | .stop => ⟨none, false, false, s.buffer⟩
  | .emit x =>
    match s.sink with
    | some t => ⟨s.sink, s.playing, s.paused, capturePush s.buffer (t, x)⟩
    | none => s

/-- Running the audio thread from the initial state over a list of events. -/
def runP (evts : List PEvent) : PlayerState := evts.foldl pstep playerInit

/-- Buffer-provenance invariant: all buffered samples carry one and the
same track tag, and when a sink is active they carry its tag. -/
def BufInv (s : PlayerState) : Prop :=
  (∀ x ∈ s.buffer.data, ∀ y ∈ s.buffer.data, x.1 = y.1) ∧
  (∀ t, s.sink = some t → ∀ x ∈ s.buffer.data, x.1 = t)

theorem bufInv_init : BufInv playerInit := by
  constructor <;> simp [playerInit, HeapRb.new]

theorem mem_capturePush {α : Type} (b : HeapRb α) (x y : α)
    (h : y ∈ (capturePush b x).data) : y ∈ b.data ∨ y = x := by
  by_cases hf : b.data.length = b.cap
  · rcases Nat.eq_zero_or_pos b.cap with hc | hc
    · have hd : b.data = [] := List.eq_nil_of_length_eq_zero (by omega)
      unfold capturePush HeapRb.tryPop HeapRb.tryPush at h
      simp [hd, hc] at h
    · rw [capturePush_full b x hc hf] at h
      simp at h
      rcases h with h | h
      · exact Or.inl (List.mem_of_mem_tail h)
      · exact Or.inr h
  · by_cases hlt : b.data.length < b.cap
    · rw [capturePush_not_full b x hlt] at h
      simp at h
      exact h
    · have hdata : (capturePush b x).data = b.data := by
        unfold capturePush HeapRb.tryPop HeapRb.tryPush
        simp [hf, hlt]
      rw [hdata] at h
      exact Or.inl h

theorem bufInv_step (s : PlayerState) (e : PEvent) (h : BufInv s) :
    BufInv (pstep s e) := by
  obtain ⟨h1, h2⟩ := h
  cases e with
  | playOk t =>
    refine ⟨?_, ?_⟩ <;> simp [pstep, BufInv, HeapRb.clear]
  | playFail =>
    refine ⟨?_, ?_⟩ <;> simp [pstep, BufInv, HeapRb.clear]
  | pause =>
    by_cases hs : s.sink.isSome
    · simp only [pstep, if_pos hs]
      exact ⟨h1, fun t ht a ha => h2 t ht a ha⟩
    · simp only [pstep, if_neg hs]
      exact ⟨h1, h2⟩
  | resume =>
    by_cases hs : s.sink.isSome
    · simp only [pstep, if_pos hs]
      exact ⟨h1, fun t ht a ha => h2 t ht a ha⟩
    · simp only [pstep, if_neg hs]
      exact ⟨h1, h2⟩
  | stop =>
    refine ⟨h1, ?_⟩
    intro t ht
    simp [pstep] at ht
  | emit x =>
    cases hs : s.sink with
    | none =>
      simp only [pstep, hs]
      exact ⟨h1, h2⟩
    | some t =>
      have hall : ∀ y ∈ s.buffer.data, y.1 = t := h2 t hs
      simp only [pstep, hs]
      constructor
      · intro a ha b hb
        rcases mem_capturePush _ _ _ ha with ha' | ha' <;>
          rcases mem_capturePush _ _ _ hb with hb' | hb'
        · exact h1 a ha' b hb'
        · rw [hall a ha', hb']
        · rw [ha', hall b hb']
        · rw [ha', hb']
      · intro t' ht' a ha
        have htt : t = t' := Option.some.inj ht'
        rcases mem_capturePush _ _ _ ha with ha' | ha'
        · rw [hall a ha', htt]
        · rw [ha', ← htt]

theorem bufInv_run (evts : List PEvent) : BufInv (runP evts) := by
  suffices h : ∀ s, BufInv s → BufInv (evts.foldl pstep s) from
    h playerInit bufInv_init
  induction evts with
  | nil => exact fun s hs => hs
  | cons e rest ih => exact fun s hs => ih (pstep s e) (bufInv_step s e hs)

/-! ### The drained mode and the full thread model -/

/-- The four commands of the public API (`PlayerCommand` in
`src/audio/player.rs`); the path is abstracted to the track number it
denotes. -/
inductive RPlayerCommand where
  | play (path : ℕ)
  | pause
  | resume
  | stop
deriving DecidableEq

/-- Normal-mode processing of one command; `openOk` tells whether opening
and decoding the given path succeeds. -/
def cmdStep (openOk : ℕ → Bool) (s : PlayerState) (c : RPlayerCommand) :
    PlayerState :=
  match c with
  | .play p => pstep s (if openOk p then .playOk p else .playFail)
  | .pause => pstep s .pause
  | .resume => pstep s .resume
  | .stop => pstep s .stop

/-- Drained-mode loop (`src/audio/player.rs` lines 62-69): when the output
stream cannot be created the thread keeps receiving commands and ignores
every one of them. -/
def drainCommands : List RPlayerCommand → PlayerState → PlayerState
  | [], s => s
  | _ :: rest, s => drainCommands rest s

/-- The audio-thread body: if the output device was acquired, commands are
processed normally; otherwise every command is drained. -/
def audioThread (deviceOk : Bool) (openOk : ℕ → Bool)
    (cmds : List RPlayerCommand) : PlayerState :=
  if deviceOk then cmds.foldl (cmdStep openOk) playerInit
  else drainCommands cmds playerInit

/-- Model of `MusicPlayer::is_playing`: reads the mirrored atomic flag. -/
def isPlaying (s : PlayerState) : Bool := s.playing

/-- Model of `MusicPlayer::is_paused`: reads the mirrored atomic flag. -/
def isPaused (s : PlayerState) : Bool := s.paused

theorem drainCommands_eq (cmds : List RPlayerCommand) (s : PlayerState) :
    drainCommands cmds s = s := by
  induction cmds with
  | nil => rfl
  | cons c rest ih => exact ih

/-! ### Claims about the buffer, capture wrapper and player -/

/-- Claim C2: pushing any sequence into the capacity-16384 ring buffer
never exceeds the capacity; a push when full evicts exactly the oldest
element before inserting; and after `16384 + k` pushes (`k > 0`) the
buffer holds exactly the last 16384 pushed values, in push order. -/
theorem C2_ring_buffer_capacity_fifo :
    (∀ xs : List ℚ, (pushAll (HeapRb.new ℚ 16384) xs).occupiedLen ≤ 16384) ∧
    (∀ (b : HeapRb ℚ) (x : ℚ), b.cap = 16384 → b.data.length = 16384 →
      (capturePush b x).data = b.data.tail ++ [x]) ∧
    (∀ (xs : List ℚ) (k : ℕ), xs.length = 16384 + k → 0 < k →
      (pushAll (HeapRb.new ℚ 16384) xs).data = xs.drop k) := by
  refine ⟨?_, ?_, ?_⟩
  · intro xs
    exact pushAll_length_le xs (HeapRb.new ℚ 16384) (by simp [HeapRb.new])
  · intro b x hcap hfull
    exact capturePush_full b x (by omega) (by omega)
  · intro xs k hlen hk
    have h := pushAll_data xs (HeapRb.new ℚ 16384)
      (by simp [HeapRb.new]) (by simp [HeapRb.new])
    have h2 : (HeapRb.new ℚ 16384).data.length + xs.length - (HeapRb.new ℚ 16384).cap = k := by
      simp [HeapRb.new]
      omega
    rw [h, h2]
    simp [HeapRb.new]

/-- Witness for C2 at concrete inputs: a full buffer evicts one element,
and 16385 pushes into the empty buffer keep the last 16384. -/
theorem C2_ring_buffer_capacity_fifo_witness :
    (capturePush (HeapRb.mk 16384 (List.replicate 16384 (0 : ℚ))) 1).data =
      (List.replicate 16384 (0 : ℚ)).tail ++ [1] ∧
    (pushAll (HeapRb.new ℚ 16384) (List.replicate 16385 (0 : ℚ))).data =
      (List.replicate 16385 (0 : ℚ)).drop 1 := by
  constructor
  · exact C2_ring_buffer_capacity_fifo.2.1 _ 1 rfl
      (by rw [List.length_replicate])
  · exact C2_ring_buffer_capacity_fifo.2.2 _ 1
      (by rw [List.length_replicate]) (by norm_num)

/-- Claim C7: the sample-capture wrapper yields exactly the wrapped
source's sample sequence, unaltered and in order, and pushes each yielded
sample into the ring buffer as a side channel. -/
theorem C7_capture_passthrough (α : Type) (src : List α) (b : HeapRb α) :
    (captureOut src b).1 = src ∧ (captureOut src b).2 = pushAll b src :=
  captureOut_spec src b

/-- Claim C1: along every serialized execution of the audio thread, the
ring buffer never holds samples of two different tracks at once, and while
a session is active all buffered samples belong to its track (the buffer
is cleared on every `Play` before any new-track sample is pushed). -/
theorem C1_play_supersedes_no_mixing (evts : List PEvent) (t : ℕ) :
    (∀ x ∈ (runP evts).buffer.data, ∀ y ∈ (runP evts).buffer.data,
      x.1 = y.1) ∧
    ((runP evts).sink = some t → ∀ x ∈ (runP evts).buffer.data, x.1 = t) := by
  have h := bufInv_run evts
  exact ⟨h.1, fun ht => h.2 t ht⟩

/-- Witness for C1: a concrete run that plays track 1, emits a sample,
then plays track 2 and emits a sample; the surviving buffered sample is
tagged with track 2. -/
theorem C1_play_supersedes_no_mixing_witness :
    ((2 : ℕ), (7 : ℚ)).1 = 2 := by
  have h := (C1_play_supersedes_no_mixing
    [.playOk 1, .emit 5, .playOk 2, .emit 7] 2).2
  exact h (by decide) (2, 7) (by decide)

/-- Counterexample to claim C5: from the reachable state obtained by
playing track 1 and emitting one sample, a failed `Play` is not a no-op —
the session is gone and the buffer has been cleared. -/
theorem C5_counterexample :
    pstep (runP [.playOk 1, .emit 5]) .playFail ≠ runP [.playOk 1, .emit 5] := by
  decide

/-- Claim C5 as amended: a failed `Play` leaves the playing/paused flags
unchanged, but it stops and drops any prior session and clears the ring
buffer (teardown happens before the open is attempted). -/
theorem C5_play_failure_effect (s : PlayerState) :
    (pstep s .playFail).playing = s.playing ∧
    (pstep s .playFail).paused = s.paused ∧
    (pstep s .playFail).sink = none ∧
    (pstep s .playFail).buffer.data = [] ∧
    (pstep s .playFail).buffer.cap = s.buffer.cap :=
  ⟨rfl, rfl, rfl, rfl, rfl⟩

/-- Claim C8: when the output device cannot be acquired, the thread drains
every submitted command without any effect: the state stays the initial
one (no sink ever exists, the buffer stays empty) and both status flags
read false for the whole lifetime. -/
theorem C8_drained_mode (openOk : ℕ → Bool) (cmds : List RPlayerCommand) :
    audioThread false openOk cmds = playerInit ∧
    isPlaying (audioThread false openOk cmds) = false ∧
    isPaused (audioThread false openOk cmds) = false := by
  have h : audioThread false openOk cmds = playerInit := by
    unfold audioThread
    simp [drainCommands_eq]
  exact ⟨h, by rw [h]; rfl, by rw [h]; rfl⟩

/-- Claim C10: `Pause` and `Resume` never change the playing flag; only a
successful `Play` sets it and only `Stop` clears it; after a successful
`Play` followed by `Pause` the player still reports playing (and reports
paused). -/
theorem C10_playing_flag_frame (s : PlayerState) (t : ℕ) (x : ℚ) :
    (pstep s .pause).playing = s.playing ∧
    (pstep s .resume).playing = s.playing ∧
    (pstep s .playFail).playing = s.playing ∧
    (pstep s (.emit x)).playing = s.playing ∧
    (pstep s (.playOk t)).playing = true ∧
    (pstep s .stop).playing = false ∧
    isPlaying (pstep (pstep s (.playOk t)) .pause) = true ∧
    isPaused (pstep (pstep s (.playOk t)) .pause) = true := by
  refine ⟨?_, ?_, rfl, ?_, rfl, rfl, rfl, rfl⟩
  · by_cases hs : s.sink.isSome <;> simp [pstep, hs]
  · by_cases hs : s.sink.isSome <;> simp [pstep, hs]
  · cases hs : s.sink <;> simp [pstep, hs]

/-! ### The FFT spectrum pipeline

`src/audio/visualizer/fft.rs`.  `f32` arithmetic is idealised as exact
real arithmetic; the external FFT library (`rustfft`) is modelled by the
mathematical forward DFT it computes. -/

/-- Fuel-driven search for the smallest power of two at least `n`,
doubling an accumulator. -/
def nextPow2Go (n : ℕ) : ℕ → ℕ → ℕ
  | 0, acc => acc
  | f + 1, acc => if n ≤ acc then acc else nextPow2Go n f (2 * acc)

/-- Model of Rust `usize::next_power_of_two`: the smallest power of two
that is at least `n` (returning 1 for `n ≤ 1`). -/
def nextPowerOfTwo (n : ℕ) : ℕ := nextPow2Go n n 1

/-- The Hann window factor `0.5 * (1 - cos(2π·i / fftSize))`
(`fft.rs` lines 40-42). -/
noncomputable def hannWindow (fftSize i : ℕ) : ℝ :=
  0.5 * (1 - Real.cos (2 * Real.pi * i / fftSize))

/-- The windowed, zero-padded complex input buffer (`fft.rs` lines 34-48):
take the first `fftSize` samples, multiply each by its Hann factor, and
resize with zeros up to `fftSize`. -/
noncomputable def windowedBuffer (samples : List ℝ) (fftSize : ℕ) : List ℂ :=
  let w := (samples.take fftSize).enum.map
    (fun p => ((p.2 * hannWindow fftSize p.1 : ℝ) : ℂ))
  w ++ List.replicate (fftSize - w.length) 0

/-- Entry `k` of the forward DFT of `x`. -/
noncomputable def dftEntry (x : List ℂ) (k : ℕ) : ℂ :=
  ∑ j ∈ Finset.range x.length,
    x.getD j 0 * Complex.exp (-(2 * (Real.pi : ℂ) * Complex.I * k * j / x.length))

/-- Models the external FFT library (`rustfft`, an out-of-repository
dependency) by the mathematical forward DFT it implements. -/
noncomputable def dft (x : List ℂ) : List ℂ :=
  (List.range x.length).map (dftEntry x)

/-- Magnitude spectrum in dB (`fft.rs` lines 54-66): keep the first
`fftSize / 2` outputs, compute `sqrt(re² + im²)` scaled by `1 / fftSize`,
and convert as `20 * log10(max(mag, 1e-10))`. -/
noncomputable def sampleMagnitudesDb (buf : List ℂ) (fftSize : ℕ) : List ℝ :=
  (buf.take (fftSize / 2)).map (fun c =>
    20 * Real.logb 10
      (max (Real.sqrt (c.re ^ 2 + c.im ^ 2) * (1 / fftSize)) ((10 ^ 10 : ℝ)⁻¹)))

/-- The power-law frequency fraction `(i / num_bands)^2.5`
(`fft.rs` lines 78-79). -/
noncomputable def freqPow (nb i : ℕ) : ℝ := ((i : ℝ) / nb) ^ ((5 : ℝ) / 2)

/-- First FFT bin of band `i`: `(freq_start * spectrum_size) as usize`
(`fft.rs` line 81). -/
noncomputable def binStart (nb S i : ℕ) : ℕ := ⌊freqPow nb i * S⌋₊

/-- One-past-last FFT bin of band `i`:
`(freq_end * spectrum_size).min(spectrum_size) as usize` (`fft.rs` line 82). -/
noncomputable def binEnd (nb S i : ℕ) : ℕ := ⌊min (freqPow nb (i + 1) * S) S⌋₊

/-- The dB value of band `i` (`fft.rs` lines 84-91): the mean of the
magnitudes in its bin range, or the −80 dB floor when the range is empty
or out of bounds. -/
noncomputable def bandDbVal (mags : List ℝ) (nb S i : ℕ) : ℝ :=
  if binStart nb S i < binEnd nb S i ∧ binEnd nb S i ≤ mags.length then
    let slice := (mags.drop (binStart nb S i)).take (binEnd nb S i - binStart nb S i)
    let count : ℝ := ((binEnd nb S i - binStart nb S i : ℕ) : ℝ)
    if 0 < count then slice.sum / count else -80
  else -80

/-- All `nb` band dB values. -/
noncomputable def bandsDb (mags : List ℝ) (nb S : ℕ) : List ℝ :=
  (List.range nb).map (bandDbVal mags nb S)

/-- Rolling auto-sensitivity state of `FftProcessor` (`fft.rs`
lines 12-15). -/
structure FftState where
  minDb : ℝ
  maxDb : ℝ

/-- Initial sensitivity state from `FftProcessor::new` (`fft.rs` lines
24-25): `min_db = -80.0`, `max_db = -10.0`. -/
noncomputable def fftInit : FftState := ⟨-80, -10⟩

/-- Model of `FftProcessor::group_into_bands` (`fft.rs` lines 73-117).
The code folds `max` over the band values starting from `f32::NEG_INFINITY`
and then takes `max` with `-30.0`; since real `max` is associative and
commutative and `-∞` is its identity, that composite equals folding `max`
over the bands starting from `-30`, which is how `targetMax` is written
here.  Returns the updated sensitivity state and the normalized band
vector `clamp((db - min_db) / (max_db - min_db), 0, 1) ^ 1.2`. -/
noncomputable def groupIntoBands (st : FftState) (nb : ℕ) (mags : List ℝ)
    (S : ℕ) : FftState × List ℝ :=
  let bs := bandsDb mags nb S
  let targetMax := bs.foldl max (-30)
  let maxDb' := 0.9 * st.maxDb + 0.1 * targetMax
  let minDb' := maxDb' - 60
  let dbRange := maxDb' - minDb'
  (⟨minDb', maxDb'⟩,
    bs.map (fun db => (min (max ((db - minDb') / dbRange) 0) 1) ^ ((6 : ℝ) / 5)))

/-- Model of `FftProcessor::compute` (`fft.rs` lines 30-70): FFT size is
the next power of two of the sample count capped at 2048; window, pad,
transform, convert to dB, then group into bands over the half spectrum. -/
noncomputable def fftCompute (st : FftState) (nb : ℕ) (samples : List ℝ) :
    FftState × List ℝ :=
  let fftSize := min (nextPowerOfTwo samples.length) 2048
  let mags := sampleMagnitudesDb (dft (windowedBuffer samples fftSize)) fftSize
  groupIntoBands st nb mags (fftSize / 2)

/-! ### The visualizer state -/

/-- State of `Visualizer` (`src/audio/visualizer/mod.rs` lines 16-31):
the FFT sensitivity state plus per-band smoothed magnitudes and peak
holds.  `num_bands = 64`, `smoothing_factor = 0.70`, `peak_decay = 0.87`
are the constants from `Visualizer::new`. -/
structure VisState where
  fft : FftState
  smoothed : List ℝ
  peaks : List ℝ

/-- Initial visualizer state (`Visualizer::new`). -/
noncomputable def visInit : VisState :=
  ⟨fftInit, List.replicate 64 0, List.replicate 64 0⟩

/-- Model of `Visualizer::update` (`mod.rs` lines 49-92) applied to the
current contents of the sample buffer (oldest first).  With fewer than
512 samples the analyzer is skipped and every band decays
(`smoothed *= 0.9`, `peak *= peak_decay`).  Otherwise the most recent
`min(available, 2048)` samples are analyzed and each band is smoothed as
`0.70·old + (1 − 0.70)·new`, with peak-hold update. -/
noncomputable def visUpdate (v : VisState) (bufData : List ℝ) : VisState :=
  let available := bufData.length
  if available < 512 then
    { v with smoothed := v.smoothed.map (fun s => s * 0.9),
             peaks := v.peaks.map (fun p => p * 0.87) }
  else
    let sampleCount := min available 2048
    let start := available - sampleCount
    let samples := (bufData.drop start).take sampleCount
    let r := fftCompute v.fft 64 samples
    { fft := r.1,
      smoothed := List.zipWith (fun s m => 0.70 * s + (1 - 0.70) * m)
        v.smoothed r.2,
      peaks := List.zipWith (fun p m => if p < m then m else p * 0.87)
        v.peaks r.2 }

/-- One visualizer cycle on a buffer holding exactly 512 zero samples. -/
noncomputable def silenceStep (v : VisState) : VisState :=
  visUpdate v (List.replicate 512 0)

/-- Repeated silence cycles from the initial state. -/
noncomputable def silenceRun (k : ℕ) : VisState := silenceStep^[k] visInit

/-! ### Helper lemmas for the spectrum pipeline -/

theorem foldl_max_eq (l : List ℝ) (b : ℝ) (h : ∀ x ∈ l, x ≤ b) :
    l.foldl max b = b := by
  induction l generalizing b with
  | nil => rfl
  | cons x xs ih =>
    rw [List.foldl_cons, max_eq_left (h x (by simp))]
    exact ih b (fun y hy => h y (by simp [hy]))

theorem le_foldl_max (l : List ℝ) (b : ℝ) : b ≤ l.foldl max b := by
  induction l generalizing b with
  | nil => exact le_refl b
  | cons x xs ih =>
    rw [List.foldl_cons]
    exact le_trans (le_max_left b x) (ih (max b x))

theorem freqPow_nonneg (nb i : ℕ) : 0 ≤ freqPow nb i :=
  Real.rpow_nonneg (by positivity) _

theorem freqPow_zero (nb : ℕ) : freqPow nb 0 = 0 := by
  unfold freqPow
  rw [Nat.cast_zero, zero_div, Real.zero_rpow (by norm_num)]

theorem freqPow_le_one (nb i : ℕ) (hnb : 0 < nb) (h : i ≤ nb) :
    freqPow nb i ≤ 1 := by
  unfold freqPow
  refine Real.rpow_le_one (by positivity) ?_ (by norm_num)
  rw [div_le_one (by exact_mod_cast hnb)]
  exact_mod_cast h

theorem freqPow_lt_one (nb i : ℕ) (hnb : 0 < nb) (h : i < nb) :
    freqPow nb i < 1 := by
  unfold freqPow
  refine Real.rpow_lt_one (by positivity) ?_ (by norm_num)
  rw [div_lt_one (by exact_mod_cast hnb)]
  exact_mod_cast h

theorem freqPow_self (nb : ℕ) (hnb : 0 < nb) : freqPow nb nb = 1 := by
  unfold freqPow
  rw [div_self (by exact_mod_cast hnb.ne'), Real.one_rpow]

theorem freqPow_mono (nb i j : ℕ) (hnb : 0 < nb) (h : i ≤ j) :
    freqPow nb i ≤ freqPow nb j := by
  unfold freqPow
  refine Real.rpow_le_rpow (by positivity) ?_ (by norm_num)
  have hc : (0 : ℝ) < nb := by exact_mod_cast hnb
  rw [div_le_div_iff_of_pos_right hc]
  exact_mod_cast h

theorem binStart_zero (nb S : ℕ) : binStart nb S 0 = 0 := by
  unfold binStart
  rw [freqPow_zero, zero_mul, Nat.floor_zero]

theorem binEnd_le (nb S i : ℕ) : binEnd nb S i ≤ S := by
  unfold binEnd
  calc ⌊min (freqPow nb (i + 1) * S) (S : ℝ)⌋₊
      ≤ ⌊(S : ℝ)⌋₊ := Nat.floor_le_floor (min_le_right _ _)
    _ = S := Nat.floor_natCast S

theorem binStart_mono (S i : ℕ) :
    binStart 64 S i ≤ binStart 64 S (i + 1) := by
  unfold binStart
  refine Nat.floor_le_floor ?_
  exact mul_le_mul_of_nonneg_right
    (freqPow_mono 64 i (i + 1) (by norm_num) (by omega)) (by positivity)

theorem binEnd_eq_binStart (S i : ℕ) (h : i ≤ 63) :
    binEnd 64 S i = binStart 64 S (i + 1) := by
  unfold binEnd binStart
  rw [min_eq_left]
  calc freqPow 64 (i + 1) * S ≤ 1 * S :=
        mul_le_mul_of_nonneg_right
          (freqPow_le_one 64 (i + 1) (by norm_num) (by omega)) (by positivity)
    _ = S := one_mul _

theorem binEnd_63 (S : ℕ) : binEnd 64 S 63 = S := by
  unfold binEnd
  rw [show (63 + 1 : ℕ) = 64 from rfl, freqPow_self 64 (by norm_num), one_mul,
    min_self, Nat.floor_natCast]

theorem binStart_lt_of_lt (S i : ℕ) (hi : i < 64) (hS : 0 < S) :
    binStart 64 S i < S := by
  unfold binStart
  rw [Nat.floor_lt (mul_nonneg (freqPow_nonneg 64 i) (by positivity))]
  calc freqPow 64 i * S < 1 * S :=
        mul_lt_mul_of_pos_right (freqPow_lt_one 64 i (by norm_num) hi)
          (by exact_mod_cast hS)
    _ = S := one_mul _

theorem bandDbVal_of_empty (mags : List ℝ) (nb S i : ℕ)
    (h : binStart nb S i = binEnd nb S i) : bandDbVal mags nb S i = -80 := by
  unfold bandDbVal
  rw [if_neg]
  intro hc
  exact absurd hc.1 (by omega)

theorem bandDbVal_replicate (c : ℝ) (nb S i : ℕ)
    (h : binStart nb S i < binEnd nb S i) (hle : binEnd nb S i ≤ S) :
    bandDbVal (List.replicate S c) nb S i = c := by
  unfold bandDbVal
  rw [if_pos ⟨h, by simpa using hle⟩]
  have hcount : (0 : ℝ) < ((binEnd nb S i - binStart nb S i : ℕ) : ℝ) := by
    have : 0 < binEnd nb S i - binStart nb S i := by omega
    exact_mod_cast this
  rw [if_pos hcount]
  rw [List.drop_replicate, List.take_replicate]
  have hmin : min (binEnd nb S i - binStart nb S i) (S - binStart nb S i) =
      binEnd nb S i - binStart nb S i := by omega
  rw [hmin, List.sum_replicate, nsmul_eq_mul]
  exact mul_div_cancel_left₀ c (ne_of_gt hcount)

/-- The smallest power of two at least 512 is 512. -/
theorem nextPowerOfTwo_512 : nextPowerOfTwo 512 = 512 := by decide

/-! ### The spectrum pipeline on all-zero samples -/

theorem freqPow_64_1 : freqPow 64 1 = 1 / 32768 := by
  unfold freqPow
  have hb : ((1 : ℕ) : ℝ) / ((64 : ℕ) : ℝ) = 1 / 64 := by norm_num
  rw [hb, show ((5 : ℝ) / 2) = ((5 : ℕ) : ℝ) * ((1 : ℝ) / 2) by norm_num,
    Real.rpow_mul (by norm_num), Real.rpow_natCast]
  rw [show ((1 / 64 : ℝ) ^ (5 : ℕ)) = (1 / 1073741824 : ℝ) by norm_num]
  rw [← Real.sqrt_eq_rpow]
  rw [show (1 / 1073741824 : ℝ) = (1 / 32768 : ℝ) ^ 2 by norm_num]
  exact Real.sqrt_sq (by norm_num)

/-- Band 0 has an empty bin range for the 256-bin spectrum. -/
theorem binEnd_64_256_0 : binEnd 64 256 0 = 0 := by
  unfold binEnd
  rw [show (0 + 1 : ℕ) = 1 from rfl, freqPow_64_1]
  rw [min_eq_left (by norm_num)]
  rw [Nat.floor_eq_zero]
  norm_num

theorem enumFrom_replicate_zero_map (f : ℕ × ℝ → ℂ)
    (hf : ∀ p : ℕ × ℝ, p.2 = 0 → f p = 0) (n k : ℕ) :
    ((List.replicate n (0 : ℝ)).enumFrom k).map f = List.replicate n 0 := by
  induction n generalizing k with
  | zero => rfl
  | succ n ih =>
    have hstep : (List.replicate (n + 1) (0 : ℝ)).enumFrom k =
        (k, (0 : ℝ)) :: (List.replicate n (0 : ℝ)).enumFrom (k + 1) := rfl
    rw [hstep, List.map_cons, hf (k, 0) rfl, ih (k + 1), ← List.replicate_succ]

/-- Windowing all-zero samples yields the all-zero complex buffer. -/
theorem windowedBuffer_silence :
    windowedBuffer (List.replicate 512 (0 : ℝ)) 512 = List.replicate 512 (0 : ℂ) := by
  have henum : (List.replicate 512 (0 : ℝ)).enum =
      (List.replicate 512 (0 : ℝ)).enumFrom 0 := rfl
  simp only [windowedBuffer, List.take_replicate, min_self, henum]
  rw [enumFrom_replicate_zero_map _ (fun p hp => by simp [hp])]
  rw [List.length_replicate, Nat.sub_self, List.replicate_zero, List.append_nil]

theorem getD_all_zero (l : List ℂ) (h : ∀ x ∈ l, x = 0) (j : ℕ) :
    l.getD j 0 = 0 := by
  by_cases hj : j < l.length
  · rw [List.getD_eq_getElem l 0 hj]
    exact h _ (List.getElem_mem hj)
  · exact List.getD_eq_default l 0 (by omega)

/-- The DFT of the all-zero buffer is all-zero. -/
theorem dft_silence (n : ℕ) : dft (List.replicate n (0 : ℂ)) = List.replicate n 0 := by
  unfold dft
  rw [List.length_replicate]
  refine List.eq_replicate_iff.mpr ⟨by simp, ?_⟩
  intro b hb
  rw [List.mem_map] at hb
  obtain ⟨k, hk, rfl⟩ := hb
  unfold dftEntry
  apply Finset.sum_eq_zero
  intro j hj
  rw [getD_all_zero _ (fun x hx => List.eq_of_mem_replicate hx) j, zero_mul]

/-- All-zero spectrum entries convert to −200 dB
(`20 * log10(max(0, 1e-10)) = 20 * (-10)`). -/
theorem sampleMagnitudesDb_silence :
    sampleMagnitudesDb (List.replicate 512 (0 : ℂ)) 512 =
      List.replicate 256 (-200) := by
  unfold sampleMagnitudesDb
  rw [show (512 / 2 : ℕ) = 256 from rfl, List.take_replicate,
    show min 256 512 = 256 from rfl, List.map_replicate]
  congr 1
  rw [Complex.zero_re, Complex.zero_im]
  rw [show (0 : ℝ) ^ 2 + (0 : ℝ) ^ 2 = 0 by norm_num, Real.sqrt_zero, zero_mul]
  rw [max_eq_right (by positivity)]
  rw [Real.logb_inv, show ((10 : ℝ) ^ 10) = ((10 : ℝ) ^ (10 : ℕ)) from rfl,
    Real.logb_pow, Real.logb_self_eq_one (by norm_num)]
  norm_num

theorem getD_replicate_lt {α : Type} (n i : ℕ) (a d : α) (h : i < n) :
    (List.replicate n a).getD i d = a := by
  rw [List.getD_eq_getElem _ _ (by simpa using h)]
  exact List.getElem_replicate a _

theorem getD_zipWith_lt (f : ℝ → ℝ → ℝ) (l1 l2 : List ℝ) (i : ℕ)
    (h1 : i < l1.length) (h2 : i < l2.length) :
    (List.zipWith f l1 l2).getD i 0 = f (l1.getD i 0) (l2.getD i 0) := by
  rw [List.getD_eq_getElem _ _ (by rw [List.length_zipWith]; omega),
    List.getElem_zipWith, List.getD_eq_getElem _ _ h1, List.getD_eq_getElem _ _ h2]

theorem getD_map_mul (l : List ℝ) (c : ℝ) (i : ℕ) :
    (l.map (fun s => s * c)).getD i 0 = l.getD i 0 * c := by
  by_cases h : i < l.length
  · rw [List.getD_eq_getElem _ _ (by simpa using h), List.getElem_map,
      List.getD_eq_getElem _ _ h]
  · rw [List.getD_eq_default _ _ (by simpa using not_lt.mp h),
      List.getD_eq_default _ _ (not_lt.mp h)]
    norm_num

theorem binStart_le_binEnd (S i : ℕ) (hi : i < 64) :
    binStart 64 S i ≤ binEnd 64 S i := by
  unfold binStart binEnd
  refine Nat.floor_le_floor (le_min ?_ ?_)
  · exact mul_le_mul_of_nonneg_right
      (freqPow_mono 64 i (i + 1) (by norm_num) (by omega)) (by positivity)
  · calc freqPow 64 i * S ≤ 1 * S :=
        mul_le_mul_of_nonneg_right
          (freqPow_le_one 64 i (by norm_num) (by omega)) (by positivity)
      _ = S := one_mul _

theorem bandsDb_silence_le :
    ∀ x ∈ bandsDb (List.replicate 256 (-200 : ℝ)) 64 256, x ≤ -30 := by
  intro x hx
  rw [bandsDb, List.mem_map] at hx
  obtain ⟨i, hi, rfl⟩ := hx
  rw [List.mem_range] at hi
  by_cases h : binStart 64 256 i < binEnd 64 256 i
  · rw [bandDbVal_replicate _ _ _ _ h (binEnd_le _ _ _)]
    norm_num
  · have hle := binStart_le_binEnd 256 i hi
    rw [bandDbVal_of_empty _ _ _ _ (by omega)]
    norm_num

theorem targetMax_silence :
    (bandsDb (List.replicate 256 (-200 : ℝ)) 64 256).foldl max (-30) = -30 :=
  foldl_max_eq _ _ bandsDb_silence_le

theorem groupIntoBands_fst_maxDb (st : FftState) (nb : ℕ) (mags : List ℝ)
    (S : ℕ) :
    (groupIntoBands st nb mags S).1.maxDb =
      0.9 * st.maxDb + 0.1 * ((bandsDb mags nb S).foldl max (-30)) := rfl

theorem groupIntoBands_fst_minDb (st : FftState) (nb : ℕ) (mags : List ℝ)
    (S : ℕ) :
    (groupIntoBands st nb mags S).1.minDb =
      (groupIntoBands st nb mags S).1.maxDb - 60 := rfl

theorem groupIntoBands_maxDb_ge (st : FftState) (nb : ℕ) (mags : List ℝ)
    (S : ℕ) (h : -30 ≤ st.maxDb) : -30 ≤ (groupIntoBands st nb mags S).1.maxDb := by
  rw [groupIntoBands_fst_maxDb]
  have hf := le_foldl_max (bandsDb mags nb S) (-30)
  nlinarith

theorem groupIntoBands_snd_length (st : FftState) (nb : ℕ) (mags : List ℝ)
    (S : ℕ) : (groupIntoBands st nb mags S).2.length = nb := by
  simp [groupIntoBands, bandsDb]

theorem groupIntoBands_snd_getD (st : FftState) (nb : ℕ) (mags : List ℝ)
    (S i : ℕ) (hi : i < nb) :
    (groupIntoBands st nb mags S).2.getD i 0 =
      (min (max ((bandDbVal mags nb S i -
        ((0.9 * st.maxDb + 0.1 * ((bandsDb mags nb S).foldl max (-30))) - 60)) / 60)
        0) 1) ^ ((6 : ℝ) / 5) := by
  simp only [groupIntoBands]
  rw [List.getD_eq_getElem _ _ (by simp [bandsDb]; exact hi)]
  simp only [List.getElem_map, bandsDb, List.getElem_range]
  have hr : ∀ M : ℝ, M - (M - 60) = 60 := fun M => by ring
  rw [hr]

/-- On 512 zero samples, `compute` reduces to grouping the −200 dB
spectrum over 256 bins. -/
theorem fftCompute_silence_eq (st : FftState) :
    fftCompute st 64 (List.replicate 512 (0 : ℝ)) =
      groupIntoBands st 64 (List.replicate 256 (-200)) 256 := by
  simp only [fftCompute, List.length_replicate, nextPowerOfTwo_512]
  rw [show min 512 2048 = 512 from rfl, windowedBuffer_silence, dft_silence,
    sampleMagnitudesDb_silence, show (512 / 2 : ℕ) = 256 from rfl]

theorem silence_maxDb (st : FftState) :
    (fftCompute st 64 (List.replicate 512 (0 : ℝ))).1.maxDb =
      0.9 * st.maxDb - 3 := by
  rw [fftCompute_silence_eq, groupIntoBands_fst_maxDb, targetMax_silence]
  ring

theorem silence_out_length (st : FftState) :
    (fftCompute st 64 (List.replicate 512 (0 : ℝ))).2.length = 64 := by
  rw [fftCompute_silence_eq]
  exact groupIntoBands_snd_length _ _ _ _

theorem silence_out_getD (st : FftState) (i : ℕ) (hi : i < 64) :
    (fftCompute st 64 (List.replicate 512 (0 : ℝ))).2.getD i 0 =
      (min (max ((bandDbVal (List.replicate 256 (-200)) 64 256 i -
        (0.9 * st.maxDb - 63)) / 60) 0) 1) ^ ((6 : ℝ) / 5) := by
  rw [fftCompute_silence_eq, groupIntoBands_snd_getD _ _ _ _ i hi, targetMax_silence]
  have hr : (0.9 * st.maxDb + 0.1 * (-30 : ℝ)) - 60 = 0.9 * st.maxDb - 63 := by
    ring
  rw [hr]

/-- One silence cycle unfolded: 512 samples are available, so the full
analysis path runs on exactly those samples. -/
theorem silenceStep_eq (v : VisState) :
    silenceStep v =
      ⟨(fftCompute v.fft 64 (List.replicate 512 (0 : ℝ))).1,
       List.zipWith (fun s m => 0.70 * s + (1 - 0.70) * m) v.smoothed
         (fftCompute v.fft 64 (List.replicate 512 (0 : ℝ))).2,
       List.zipWith (fun p m => if p < m then m else p * 0.87) v.peaks
         (fftCompute v.fft 64 (List.replicate 512 (0 : ℝ))).2⟩ := by
  simp only [silenceStep, visUpdate, List.length_replicate]
  rw [if_neg (by norm_num)]
  rw [show min 512 2048 = 512 from rfl, Nat.sub_self, List.drop_zero,
    List.take_replicate, min_self]

/-- Structural and sensitivity invariants along the silence run: the band
vectors keep length 64 and `max_db` after `k` cycles is
`-30 + 20·0.9^k` (exponential decay from the −10 seed toward the −30
floor). -/
theorem silenceRun_zero : silenceRun 0 = visInit := rfl

theorem silenceRun_succ (k : ℕ) :
    silenceRun (k + 1) = silenceStep (silenceRun k) :=
  Function.iterate_succ_apply' silenceStep k visInit

theorem silenceRun_invariants (k : ℕ) :
    (silenceRun k).smoothed.length = 64 ∧ (silenceRun k).peaks.length = 64 ∧
    (silenceRun k).fft.maxDb = -30 + 20 * (0.9 : ℝ) ^ k := by
  induction k with
  | zero =>
    refine ⟨by simp [silenceRun_zero, visInit], by simp [silenceRun_zero, visInit], ?_⟩
    show fftInit.maxDb = -30 + 20 * (0.9 : ℝ) ^ 0
    norm_num [fftInit]
  | succ k ih =>
    obtain ⟨hs, hp, hm⟩ := ih
    rw [silenceRun_succ, silenceStep_eq]
    refine ⟨?_, ?_, ?_⟩
    · simp only [List.length_zipWith, hs, silence_out_length]
      norm_num
    · simp only [List.length_zipWith, hp, silence_out_length]
      norm_num
    · show (fftCompute (silenceRun k).fft 64 (List.replicate 512 (0 : ℝ))).1.maxDb = _
      rw [silence_maxDb, hm]
      ring

/-- Through the first six silence cycles, band 0's smoothed value stays 0:
its −80 dB floor value is still below the (decaying) sensitivity window,
so it normalizes to 0. -/
theorem silenceRun_band0 (k : ℕ) (hk : k ≤ 6) :
    (silenceRun k).smoothed.getD 0 0 = 0 := by
  induction k with
  | zero =>
    show visInit.smoothed.getD 0 0 = 0
    simp only [visInit]
    exact getD_replicate_lt 64 0 0 0 (by norm_num)
  | succ k ih =>
    obtain ⟨hs, hp, hm⟩ := silenceRun_invariants k
    rw [silenceRun_succ, silenceStep_eq]
    show (List.zipWith _ (silenceRun k).smoothed _).getD 0 0 = 0
    rw [getD_zipWith_lt _ _ _ 0 (by rw [hs]; norm_num)
      (by rw [silence_out_length]; norm_num)]
    rw [ih (by omega)]
    rw [silence_out_getD _ 0 (by norm_num)]
    rw [bandDbVal_of_empty _ _ _ _ (by rw [binStart_zero, binEnd_64_256_0])]
    rw [hm]
    have hpow : (0.9 : ℝ) ^ 5 ≤ (0.9 : ℝ) ^ k := by
      refine pow_le_pow_of_le_one (by norm_num) (by norm_num) (by omega)
    have harg : (-80 - (0.9 * (-30 + 20 * (0.9 : ℝ) ^ k) - 63)) / 60 ≤ 0 := by
      nlinarith
    rw [max_eq_right harg, min_eq_left (by norm_num),
      Real.zero_rpow (by norm_num)]
    norm_num

/-- Counterexample to claim C3: running the update on all-zero samples
(512 available each cycle) from the initial state, band 0's smoothed value
is 0 after six cycles and strictly increases at the seventh cycle — it
does not decrease monotonically toward 0.  (Band 0 has an empty bin range,
so it is pinned at −80 dB while occupied bands sit at −200 dB; once
`max_db` has decayed below −20, the −80 dB floor normalizes to a positive
value.) -/
theorem C3_counterexample :
    (silenceRun 6).smoothed.getD 0 0 = 0 ∧
    (silenceRun 6).smoothed.getD 0 0 < (silenceRun 7).smoothed.getD 0 0 := by
  have h6 : (silenceRun 6).smoothed.getD 0 0 = 0 := silenceRun_band0 6 (le_refl 6)
  refine ⟨h6, ?_⟩
  obtain ⟨hs, hp, hm⟩ := silenceRun_invariants 6
  rw [h6]
  rw [show (7 : ℕ) = 6 + 1 from rfl, silenceRun_succ, silenceStep_eq]
  show (0 : ℝ) < (List.zipWith _ (silenceRun 6).smoothed _).getD 0 0
  rw [getD_zipWith_lt _ _ _ 0 (by rw [hs]; norm_num)
    (by rw [silence_out_length]; norm_num)]
  rw [h6, silence_out_getD _ 0 (by norm_num)]
  rw [bandDbVal_of_empty _ _ _ _ (by rw [binStart_zero, binEnd_64_256_0])]
  rw [hm]
  have harg : (0 : ℝ) <
      (-80 - (0.9 * (-30 + 20 * (0.9 : ℝ) ^ 6) - 63)) / 60 := by
    norm_num
  have harg2 : (-80 - (0.9 * (-30 + 20 * (0.9 : ℝ) ^ 6) - 63)) / 60 ≤ 1 := by
    norm_num
  rw [max_eq_left (le_of_lt harg), min_eq_left harg2]
  have hrpow := Real.rpow_pos_of_pos harg ((6 : ℝ) / 5)
  nlinarith

/-- Claim C3 as amended: under a silence cycle (512 zero samples), a band
whose bin range is non-empty receives analyzer value 0 (its −200 dB sits
far below the sensitivity window, whose ceiling never drops below −30 dB),
so its smoothed value contracts by exactly the factor 0.70 and its
non-negative peak hold by exactly 0.87 — monotone decay toward 0.  Bands
with an empty bin range are pinned at −80 dB instead and do not follow
this decay (see the counterexample): the all-silence snapshot is not
uniformly −80 dB. -/
theorem C3_silence_decay_nonempty_bands (v : VisState) (i : ℕ)
    (hs : v.smoothed.length = 64) (hp : v.peaks.length = 64) (hi : i < 64)
    (hne : binStart 64 256 i < binEnd 64 256 i)
    (hpk : 0 ≤ v.peaks.getD i 0) (hmax : -30 ≤ v.fft.maxDb) :
    (silenceStep v).smoothed.getD i 0 = 0.70 * v.smoothed.getD i 0 ∧
    (silenceStep v).peaks.getD i 0 = v.peaks.getD i 0 * 0.87 := by
  have hout := silence_out_getD v.fft i hi
  rw [bandDbVal_replicate _ _ _ _ hne (binEnd_le _ _ _)] at hout
  have hzero : (fftCompute v.fft 64 (List.replicate 512 (0 : ℝ))).2.getD i 0 = 0 := by
    rw [hout]
    have harg : (-200 - (0.9 * v.fft.maxDb - 63)) / 60 ≤ 0 := by nlinarith
    rw [max_eq_right harg, min_eq_left (by norm_num), Real.zero_rpow (by norm_num)]
  rw [silenceStep_eq]
  constructor
  · show (List.zipWith _ v.smoothed _).getD i 0 = _
    rw [getD_zipWith_lt _ _ _ i (by rw [hs]; omega)
      (by rw [silence_out_length]; omega)]
    rw [hzero]
    ring
  · show (List.zipWith _ v.peaks _).getD i 0 = _
    rw [getD_zipWith_lt _ _ _ i (by rw [hp]; omega)
      (by rw [silence_out_length]; omega)]
    rw [hzero, if_neg (not_lt.mpr hpk)]

/-- Witness for the amended C3 at the initial state and band 63 (whose bin
range is non-empty for the 256-bin spectrum). -/
theorem C3_silence_decay_nonempty_bands_witness :
    (silenceStep visInit).smoothed.getD 63 0 = 0.70 * visInit.smoothed.getD 63 0 ∧
    (silenceStep visInit).peaks.getD 63 0 = visInit.peaks.getD 63 0 * 0.87 := by
  refine C3_silence_decay_nonempty_bands visInit 63 (by simp [visInit])
    (by simp [visInit]) (by norm_num) ?_ ?_ ?_
  · rw [binEnd_63]
    exact binStart_lt_of_lt 256 63 (by norm_num) (by norm_num)
  · show (0 : ℝ) ≤ (List.replicate 64 (0 : ℝ)).getD 63 0
    rw [getD_replicate_lt 64 63 (0 : ℝ) 0 (by norm_num)]
  · show (-30 : ℝ) ≤ fftInit.maxDb
    norm_num [fftInit]

/-- Claim C9: with fewer than 512 samples available the analyzer is
skipped entirely — the FFT sensitivity state is untouched, every smoothed
band is multiplied by exactly 0.9 and every peak hold by exactly 0.87,
and the result does not depend on the (short) buffer contents at all: the
snapshot is neither zero-padded nor treated as silence. -/
theorem C9_insufficient_skip (v : VisState) (buf : List ℝ)
    (h : buf.length < 512) :
    (visUpdate v buf).fft = v.fft ∧
    (∀ i, (visUpdate v buf).smoothed.getD i 0 = v.smoothed.getD i 0 * 0.9) ∧
    (∀ i, (visUpdate v buf).peaks.getD i 0 = v.peaks.getD i 0 * 0.87) ∧
    (∀ buf2 : List ℝ, buf2.length < 512 → visUpdate v buf = visUpdate v buf2) := by
  have hv : ∀ b : List ℝ, b.length < 512 → visUpdate v b =
      { v with smoothed := v.smoothed.map (fun s => s * 0.9),
               peaks := v.peaks.map (fun p => p * 0.87) } := by
    intro b hb
    simp only [visUpdate]
    rw [if_pos hb]
  refine ⟨by rw [hv buf h], ?_, ?_, ?_⟩
  · intro i
    rw [hv buf h]
    exact getD_map_mul v.smoothed 0.9 i
  · intro i
    rw [hv buf h]
    exact getD_map_mul v.peaks 0.87 i
  · intro buf2 h2
    rw [hv buf h, hv buf2 h2]

/-- Witness for C9: updating with an empty buffer (0 < 512 samples). -/
theorem C9_insufficient_skip_witness :
    (visUpdate visInit []).fft = visInit.fft ∧
    visUpdate visInit [] = visUpdate visInit [0] := by
  have h := C9_insufficient_skip visInit [] (by norm_num)
  exact ⟨h.1, h.2.2.2 [0] (by norm_num)⟩

/-- Counterexample to claim C6: in the initial state of the FFT processor
the offset between `max_db` and `min_db` is 70 dB, not 60:
`min_db = -80` but `max_db - 60 = -70`. -/
theorem C6_counterexample : fftInit.minDb ≠ fftInit.maxDb - 60 := by
  norm_num [fftInit]

/-- Running the analyzer over successive sample snapshots; the processor
state is threaded through with no reset operation. -/
noncomputable def runFrames (st : FftState) (frames : List (List ℝ)) : FftState :=
  frames.foldl (fun s f => (fftCompute s 64 f).1) st

theorem runFrames_cons (st : FftState) (f : List ℝ) (fs : List (List ℝ)) :
    runFrames st (f :: fs) = runFrames (fftCompute st 64 f).1 fs := rfl

/-- Claim C6 as amended: the initial state has `min_db = -80` and
`max_db = -10` (a 70 dB offset); after at least one analysis cycle — over
any sequence of snapshots, with no reset in between — `min_db` equals
`max_db - 60` exactly, and `max_db` never falls below −30 dB because the
tracked target is floored at −30. -/
theorem C6_sensitivity_window_amended (frames : List (List ℝ))
    (hne : frames ≠ []) :
    fftInit.minDb = -80 ∧ fftInit.maxDb = -10 ∧
    (runFrames fftInit frames).minDb = (runFrames fftInit frames).maxDb - 60 ∧
    -30 ≤ (runFrames fftInit frames).maxDb := by
  have hgen : ∀ (fr : List (List ℝ)) (st : FftState), -30 ≤ st.maxDb →
      (fr ≠ [] → (runFrames st fr).minDb = (runFrames st fr).maxDb - 60) ∧
      -30 ≤ (runFrames st fr).maxDb := by
    intro fr
    induction fr with
    | nil => exact fun st hst => ⟨fun hc => absurd rfl hc, hst⟩
    | cons f fs ih =>
      intro st hst
      have hst' : -30 ≤ (fftCompute st 64 f).1.maxDb :=
        groupIntoBands_maxDb_ge st 64 _ _ hst
      have hrec := ih (fftCompute st 64 f).1 hst'
      rw [runFrames_cons]
      refine ⟨fun _ => ?_, hrec.2⟩
      rcases fs with _ | ⟨g, gs⟩
      · exact groupIntoBands_fst_minDb st 64 _ _
      · exact hrec.1 (by simp)
  have h := hgen frames fftInit (by norm_num [fftInit])
  exact ⟨by norm_num [fftInit], by norm_num [fftInit], h.1 hne, h.2⟩

/-- Witness for the amended C6: one cycle over an empty snapshot. -/
theorem C6_sensitivity_window_amended_witness :
    (runFrames fftInit [[]]).minDb = (runFrames fftInit [[]]).maxDb - 60 ∧
    -30 ≤ (runFrames fftInit [[]]).maxDb := by
  have h := C6_sensitivity_window_amended [[]] (by simp)
  exact ⟨h.2.2.1, h.2.2.2⟩

/-- Discrete intermediate value: if `g 0 ≤ j < g n` then some step of `g`
brackets `j`. -/
theorem exists_step_interval (g : ℕ → ℕ) (n j : ℕ) (h0 : g 0 ≤ j)
    (hn : j < g n) : ∃ i, i < n ∧ g i ≤ j ∧ j < g (i + 1) := by
  induction n with
  | zero => omega
  | succ n ih =>
    by_cases h : g n ≤ j
    · exact ⟨n, by omega, h, hn⟩
    · obtain ⟨i, hi, h1, h2⟩ := ih (by omega)
      exact ⟨i, by omega, h1, h2⟩

/-- Claim C4: for every spectrum size `S ≥ 1`, the 64 band ranges have
non-decreasing start indices, are contiguous (each band ends where the
next starts), start at 0, end at `S`, and cover `[0, S)`; a band whose
range is empty is assigned the −80 dB floor rather than being undefined. -/
theorem C4_band_partition (S : ℕ) (hS : 1 ≤ S) :
    (∀ i, i ≤ 63 → binStart 64 S i ≤ binStart 64 S (i + 1)) ∧
    (∀ i, i ≤ 63 → binEnd 64 S i = binStart 64 S (i + 1)) ∧
    binStart 64 S 0 = 0 ∧
    binEnd 64 S 63 = S ∧
    (∀ j, j < S → ∃ i, i < 64 ∧ binStart 64 S i ≤ j ∧ j < binEnd 64 S i) ∧
    (∀ (mags : List ℝ) (i : ℕ), binStart 64 S i = binEnd 64 S i →
      bandDbVal mags 64 S i = -80) := by
  refine ⟨fun i _ => binStart_mono S i, fun i hi => binEnd_eq_binStart S i hi,
    binStart_zero 64 S, binEnd_63 S, ?_,
    fun mags i h => bandDbVal_of_empty mags 64 S i h⟩
  intro j hj
  have h64 : binStart 64 S 64 = S := by
    rw [← binEnd_eq_binStart S 63 (by norm_num), binEnd_63]
  obtain ⟨i, hi, h1, h2⟩ := exists_step_interval (binStart 64 S) 64 j
    (by rw [binStart_zero]; omega) (by rw [h64]; exact hj)
  refine ⟨i, hi, h1, ?_⟩
  rw [binEnd_eq_binStart S i (by omega)]
  exact h2

/-- Witness for C4 at the concrete spectrum size 256: the partition starts
at 0, ends at 256, bin 0 lies in some band, and the empty band 0 takes the
−80 dB floor. -/
theorem C4_band_partition_witness :
    binStart 64 256 0 = 0 ∧ binEnd 64 256 63 = 256 ∧
    (∃ i, i < 64 ∧ binStart 64 256 i ≤ 0 ∧ 0 < binEnd 64 256 i) ∧
    bandDbVal [] 64 256 0 = -80 := by
  obtain ⟨h1, h2, h3, h4, h5, h6⟩ := C4_band_partition 256 (by norm_num)
  exact ⟨h3, h4, h5 0 (by norm_num),
    h6 [] 0 (by rw [binStart_zero, binEnd_64_256_0])⟩
